import Mathlib

/-!
Verification development for the `nmf` package: non-negative matrix factorisation
by alternating non-negative least squares using projected gradients.

The Go source (`nmf.go`) is embedded shallowly:

* `mat64.Dense` matrices become `Matrix (Fin m) (Fin n) ℚ`; real arithmetic is
  modelled exactly over the rationals (decimal literals such as `0.99` become
  `99/100`).
* `mat64`'s `Norm(0)` (the Frobenius norm) only ever appears in comparisons of the
  form `sqrt s < t * sqrt g` where `s` and `g` are sums of squares and `t` is a
  rational coefficient: every tolerance handled by the program has the form
  `coefficient * grad` with `grad = sqrt gradSq` fixed at the start of a run
  (`tolW`, `tolH` start at `max(0.001, Tolerance) * grad` and are only ever
  multiplied by `0.1`).  We therefore carry the squared quantities and the
  rational coefficients, and replace each comparison by the equivalent decidable
  rational predicate `normLt`; the equivalence with the `Real.sqrt` formulation
  is proved in `normLt_iff_sqrt`.
* The wall-clock check `time.Now().Sub(to) > c.Limit` is abstracted by an oracle
  `tu : ℕ → Bool` giving the outcome of the time test at each outer iteration.
* Go loop counters are natural numbers (a Go `for` loop with a non-positive
  bound performs no iterations).
* `new(mat64.Dense)` (an empty matrix, returned as `G` only when the subproblem
  performs zero outer iterations) is modelled by the zero matrix of the right
  shape; its entries are never inspected on that path.
* Ghost fields record observable events without influencing the computation:
  `subCalls` (number of subproblem invocations), `lastFlags` (the success flags
  of the most recently completed outer iteration), and `redAcc` / `expAcc`
  (whether a line-search acceptance happened in reduce / expand mode).
-/

namespace NMF

open Matrix

attribute [local semireducible] Rat.add Rat.mul Rat.sub Rat.inv

/-- Dense rational matrix of shape `m × n`, modelling `mat64.Dense`. -/
abbrev Mat (m n : ℕ) : Type := Matrix (Fin m) (Fin n) ℚ

/-- Sum of the squares of all entries.  `Dense.Norm(0)` is `sqrt (frobSq A)`,
and the hand-rolled loop computing `proj` in `Factors` sums exactly these
squares before taking the square root. -/
def frobSq {α β : Type} [Fintype α] [Fintype β] (A : Matrix α β ℚ) : ℚ :=
  ∑ i, ∑ j, A i j * A i j

/-- `Dense.Sum()`: the sum of all entries. -/
def matSum {m n : ℕ} (A : Mat m n) : ℚ := ∑ i, ∑ j, A i j

/-- Decidable rational form of the comparison `sqrt sq < t * sqrt gs` used by
every stopping test in the program (`sq`, `gs` are sums of squares, `t` a
rational tolerance coefficient).  Equivalence with the real-number comparison is
`normLt_iff_sqrt` below. -/
def normLt (sq t gs : ℚ) : Prop := 0 < t ∧ sq < t ^ 2 * gs

instance normLt.instDecidable (sq t gs : ℚ) : Decidable (normLt sq t gs) := by
  unfold normLt; infer_instance

/-- `posFilt` (source lines 144-149): keep a positive entry, replace any other
entry by zero.  The row/column arguments of the Go function are unused there and
dropped here. -/
def posFilt (v : ℚ) : ℚ := if 0 < v then v else 0

/-- The projected-gradient mask: the single formula shared by the closures
`decFiltW`, `decFiltH` (source lines 86-100) and `decFilt` (lines 162-168).
`F` is the factor matrix captured by the closure at the time `Apply` runs, `G`
the gradient it is applied to: an entry is kept when it is negative or the
corresponding factor entry is positive, and zeroed otherwise. -/
def decFilt {m n : ℕ} (F G : Mat m n) : Mat m n :=
  Matrix.of fun r c => if G r c < 0 ∨ 0 < F r c then G r c else 0

/-- Line-search step-shrink factor: `alpha, beta := 1., 0.1` (source line 160). -/
def beta : ℚ := 1 / 10

/-- One line-search candidate `Hn` (source lines 186-189):
`Hn = posFilt(H - alpha*G)`, entrywise. -/
def candidate {k b : ℕ} (G H : Mat k b) (alpha : ℚ) : Mat k b :=
  (H - alpha • G).map posFilt

/-- Left-hand side of the sufficient-decrease test (source lines 191-196):
with `d = Hn - H`, the value `0.99 * (G ⊙ d).Sum() + 0.5 * ((WtW*d) ⊙ d).Sum()`;
the test accepts when this is `< 0`. -/
def suffVal {k b : ℕ} (WtW : Mat k k) (G H Hn : Mat k b) : ℚ :=
  let d := Hn - H
  99 / 100 * matSum (Matrix.hadamard G d) + 1 / 2 * matSum (Matrix.hadamard (WtW * d) d)

/-- Result of one run of the inner line-search loop.  `H`, `alpha`, `ok` are the
program variables as left by the loop; `redAcc` and `expAcc` are ghost flags:
`redAcc` is true when the loop accepted a candidate through the reduce-mode
branch (the only place the source sets `ok = true`, line 205), `expAcc` when the
expand-mode branch broke out accepting an `Hp` different from the base `H`
(lines 211-213). -/
structure InnerOut (k b : ℕ) where
  H : Mat k b
  alpha : ℚ
  ok : Bool
  redAcc : Bool
  expAcc : Bool
deriving DecidableEq

/-- The inner line-search loop of `nnlsSubproblem` (source lines 185-219).
Arguments after `G` and the base point `H`: previous candidate `Hp`, step scale
`alpha`, mode flag `red` (`reduce`), the subproblem-level `ok`, a flag `first`
marking `j == 0` (where the source initialises `reduce` and `Hp`), and the
remaining iteration count.  Inside one run of the loop the source never
reassigns `H` except when breaking, so the base point is a fixed parameter. -/
def nnlsInner {k b : ℕ} (WtW : Mat k k) (G H : Mat k b) :
    Mat k b → ℚ → Bool → Bool → Bool → ℕ → InnerOut k b
  | _, alpha, _, ok, _, 0 => ⟨H, alpha, ok, false, false⟩
  | Hp, alpha, red, ok, first, fuel + 1 =>
    let Hn := candidate G H alpha
    let s : Bool := decide (suffVal WtW G H Hn < 0)
    let red' : Bool := if first then !s else red
    let Hp' : Mat k b := if first then H else Hp
    if red' then
      if s then ⟨Hn, alpha, true, true, false⟩
      else nnlsInner WtW G H Hp' (alpha * beta) red' ok false fuel
    else
      if !s || decide (Hp' = Hn) then ⟨Hp', alpha, ok, false, decide (Hp' ≠ H)⟩
      else nnlsInner WtW G H Hn (alpha / beta) red' ok false fuel

/-- Result of `nnlsSubproblem`: final `H`, last computed `G`, outer-iteration
count `i`, success flag `ok`, plus ghost accumulations of the inner-loop
acceptance flags over all outer iterations. -/
structure SubOut (k b : ℕ) where
  H : Mat k b
  G : Mat k b
  i : ℕ
  ok : Bool
  redAccAny : Bool
  expAccAny : Bool
deriving DecidableEq

/-- The outer loop of `nnlsSubproblem` (source lines 171-220): compute the
masked gradient, stop when its norm is below the tolerance, otherwise run the
inner line search and continue.  `i` is the Go loop counter, the second `ℕ`
argument the remaining fuel (`outer - i`). -/
def nnlsLoop {k b : ℕ} (WtV : Mat k b) (WtW : Mat k k) (tc gs : ℚ) (inner : ℕ) :
    ℕ → ℕ → Mat k b → Mat k b → ℚ → Bool → Bool → Bool → SubOut k b
  | i, 0, H, G, _, ok, racc, eacc => ⟨H, G, i, ok, racc, eacc⟩
  | i, fuel + 1, H, _, alpha, ok, racc, eacc =>
    let G' := decFilt H (WtW * H - WtV)
    if normLt (frobSq G') tc gs then ⟨H, G', i, ok, racc, eacc⟩
    else
      let r := nnlsInner WtW G' H H alpha false ok true inner
      nnlsLoop WtV WtW tc gs inner (i + 1) fuel r.H G' r.alpha r.ok
        (racc || r.redAcc) (eacc || r.expAcc)

/-- `nnlsSubproblem` (source lines 151-223).  The Go `tol` argument, always of
the form `tc * sqrt gs`, is passed as the pair `(tc, gs)` (see the header
comment); `H` starts from a clone of `Ho` and `G` from an empty matrix
(modelled as zero), `alpha = 1`, `ok = false`. -/
def nnlsSubproblem {a k b : ℕ} (V : Mat a b) (W : Mat a k) (Ho : Mat k b)
    (tc gs : ℚ) (outer inner : ℕ) : SubOut k b :=
  let WtV := Wᵀ * V
  let WtW := Wᵀ * W
  nnlsLoop WtV WtW tc gs inner 0 outer Ho 0 1 false false false

/-- `Config` (source lines 21-36).  `Tolerance` is exact rational; the iteration
caps are naturals; `Limit` is replaced by the time oracle passed to `Factors`. -/
structure Config where
  Tolerance : ℚ
  MaxIter : ℕ
  MaxOuterSub : ℕ
  MaxInnerSub : ℕ
deriving DecidableEq

/-- The mutable state of the main loop of `Factors`, plus ghost fields
`subCalls` (how many `nnlsSubproblem` calls have run) and `lastFlags` (the pair
of subproblem success flags of the most recently completed outer iteration). -/
structure FState (m k n : ℕ) where
  W : Mat m k
  H : Mat k n
  gW : Mat m k
  gH : Mat k n
  tcW : ℚ
  tcH : ℚ
  ok : Bool
  subCalls : ℕ
  lastFlags : Option (Bool × Bool)
deriving DecidableEq

/-- Initial gradient `gW` (source lines 58-63): `gW = W*(H*Hᵀ) - V*Hᵀ`,
with the products associated exactly as the source computes them. -/
def initGW {m k n : ℕ} (V : Mat m n) (W : Mat m k) (H : Mat k n) : Mat m k :=
  W * (H * Hᵀ) - V * Hᵀ

/-- Initial gradient `gH` (source lines 65-71): `gH = (Wᵀ*W)*H - Wᵀ*V`. -/
def initGH {m k n : ℕ} (V : Mat m n) (W : Mat m k) (H : Mat k n) : Mat k n :=
  (Wᵀ * W) * H - Wᵀ * V

/-- Square of the global stopping scale `grad := gWHT.Norm(0)` where
`gWHT = Stack(gW, gHᵀ)` (source lines 73-77). -/
def gradSq0 {m k n : ℕ} (V : Mat m n) (W : Mat m k) (H : Mat k n) : ℚ :=
  frobSq (Matrix.fromRows (initGW V W H) (initGH V W H)ᵀ)

/-- State of `Factors` just before its main loop (source lines 44-79):
`W = Wo`, `H = Ho`, the initial gradients, `tolW = tolH = max(0.001, Tolerance)
* grad` (stored as the coefficient of `grad`), `ok = false`. -/
def factorsInitState {m k n : ℕ} (V : Mat m n) (Wo : Mat m k) (Ho : Mat k n)
    (c : Config) : FState m k n :=
  { W := Wo, H := Ho, gW := initGW V Wo Ho, gH := initGH V Wo Ho,
    tcW := max (1 / 1000) c.Tolerance, tcH := max (1 / 1000) c.Tolerance,
    ok := false, subCalls := 0, lastFlags := none }

/-- The main loop of `Factors` (source lines 102-139).  Each iteration masks the
stored gradients with the current factors, performs the stopping/time test, and
otherwise runs the W-subproblem on the transposed system followed by the
H-subproblem, adapting `tolW`/`tolH` when a subproblem reports zero iterations.
`tu i` is the outcome of `time.Now().Sub(to) > c.Limit` at iteration `i`. -/
def factorsLoop {m k n : ℕ} (V : Mat m n) (c : Config) (gs : ℚ) (tu : ℕ → Bool) :
    ℕ → ℕ → FState m k n → FState m k n
  | _, 0, s => s
  | i, fuel + 1, s =>
    let gW := decFilt s.W s.gW
    let gH := decFilt s.H s.gH
    if normLt (frobSq gW + frobSq gH) c.Tolerance gs ∨ tu i = true then
      { s with gW := gW, gH := gH }
    else
      let rW := nnlsSubproblem Vᵀ (s.H)ᵀ (s.W)ᵀ s.tcW gs c.MaxOuterSub c.MaxInnerSub
      let tcW := if rW.i = 0 then s.tcW * (1 / 10) else s.tcW
      let W := (rW.H)ᵀ
      let rH := nnlsSubproblem V W s.H s.tcH gs c.MaxOuterSub c.MaxInnerSub
      let tcH := if rH.i = 0 then s.tcH * (1 / 10) else s.tcH
      factorsLoop V c gs tu (i + 1) fuel
        { W := W, H := rH.H, gW := (rW.G)ᵀ, gH := rH.G, tcW := tcW, tcH := tcH,
          ok := rW.ok && rH.ok, subCalls := s.subCalls + 2,
          lastFlags := some (rW.ok, rH.ok) }

/-- `Factors` run to its full final state (ghost fields included). -/
def FactorsFull {m k n : ℕ} (V : Mat m n) (Wo : Mat m k) (Ho : Mat k n)
    (c : Config) (tu : ℕ → Bool) : FState m k n :=
  factorsLoop V c (gradSq0 V Wo Ho) tu 0 c.MaxIter (factorsInitState V Wo Ho c)

/-- `Factors` (source lines 41-142): the returned triple `(W, H, ok)`. -/
def Factors {m k n : ℕ} (V : Mat m n) (Wo : Mat m k) (Ho : Mat k n)
    (c : Config) (tu : ℕ → Bool) : Mat m k × Mat k n × Bool :=
  ((FactorsFull V Wo Ho c tu).W, (FactorsFull V Wo Ho c tu).H,
    (FactorsFull V Wo Ho c tu).ok)

/-- Entrywise non-negativity of a matrix. -/
def NN {m n : ℕ} (A : Mat m n) : Prop := ∀ i j, 0 ≤ A i j

instance NN.instDecidable {m n : ℕ} (A : Mat m n) : Decidable (NN A) := by
  unfold NN; infer_instance

/-! ## Supporting lemmas -/

/-- `posFilt` clamps to the non-negative half line: it is `max 0`. -/
theorem posFilt_eq_max (v : ℚ) : posFilt v = max 0 v := by
  unfold posFilt
  split
  · exact (max_eq_right (le_of_lt ‹0 < v›)).symm
  · exact (max_eq_left (le_of_not_lt ‹¬0 < v›)).symm

theorem posFilt_nonneg (v : ℚ) : 0 ≤ posFilt v := by
  rw [posFilt_eq_max]; exact le_max_left 0 v

theorem frobSq_nonneg {α β : Type} [Fintype α] [Fintype β] (A : Matrix α β ℚ) :
    0 ≤ frobSq A :=
  Finset.sum_nonneg fun _ _ => Finset.sum_nonneg fun _ _ => mul_self_nonneg _

/-- Soundness of the squared representation of norm comparisons: for non-negative
`sq` and `gs` (sums of squares), the decidable predicate `normLt sq t gs` says
exactly `sqrt sq < t * sqrt gs`, the form of every stopping test in the source. -/
theorem normLt_iff_sqrt (sq t gs : ℚ) (hsq : 0 ≤ sq) :
    normLt sq t gs ↔ Real.sqrt (sq : ℝ) < (t : ℝ) * Real.sqrt (gs : ℝ) := by
  rcases le_or_lt t 0 with ht | ht
  · refine iff_of_false (fun h => absurd h.1 (not_lt.mpr ht)) (not_lt.mpr ?_)
    calc (t : ℝ) * Real.sqrt (gs : ℝ) ≤ 0 :=
          mul_nonpos_of_nonpos_of_nonneg (by exact_mod_cast ht) (Real.sqrt_nonneg _)
    _ ≤ Real.sqrt (sq : ℝ) := Real.sqrt_nonneg _
  · have htR : (0 : ℝ) < (t : ℝ) := by exact_mod_cast ht
    have h1 : (t : ℝ) * Real.sqrt (gs : ℝ) = Real.sqrt ((t : ℝ) ^ 2 * (gs : ℝ)) := by
      rw [Real.sqrt_mul (by positivity), Real.sqrt_sq htR.le]
    rw [h1, Real.sqrt_lt_sqrt_iff (by exact_mod_cast hsq)]
    unfold normLt
    constructor
    · rintro ⟨-, h⟩
      exact_mod_cast h
    · intro h
      exact ⟨ht, by exact_mod_cast h⟩

/-! ## Claims -/

/-- C3: with `MaxIter = 0` the main loop never runs: `Factors` returns the input
matrices `Wo`, `Ho` unchanged together with `ok = false`, and no subproblem
solve is ever invoked (the ghost call counter stays at zero). -/
theorem factors_maxIter_zero {m k n : ℕ} (V : Mat m n) (Wo : Mat m k) (Ho : Mat k n)
    (c : Config) (tu : ℕ → Bool) (h : c.MaxIter = 0) :
    Factors V Wo Ho c tu = (Wo, Ho, false) ∧
      (FactorsFull V Wo Ho c tu).subCalls = 0 := by
  unfold Factors FactorsFull
  rw [h]
  simp [factorsLoop, factorsInitState]

theorem factors_maxIter_zero_witness :
    Factors ![![(2 : ℚ)]] ![![(1 : ℚ)]] ![![(1 : ℚ)]] ⟨1 / 10, 0, 2, 2⟩ (fun _ => false)
        = (![![(1 : ℚ)]], ![![(1 : ℚ)]], false) ∧
      (FactorsFull ![![(2 : ℚ)]] ![![(1 : ℚ)]] ![![(1 : ℚ)]] ⟨1 / 10, 0, 2, 2⟩
          (fun _ => false)).subCalls = 0 :=
  factors_maxIter_zero _ _ _ _ _ rfl

/-- C10: with a positive iteration budget, if the initial factors already pass the
stopping test (the combined masked-gradient norm is below `Tolerance * grad` at
the first outer iteration), `Factors` returns `Wo`, `Ho` unchanged with
`ok = false`. -/
theorem factors_initial_convergence {m k n : ℕ} (V : Mat m n) (Wo : Mat m k)
    (Ho : Mat k n) (c : Config) (tu : ℕ → Bool) (h1 : 0 < c.MaxIter)
    (h2 : normLt
      (frobSq (decFilt Wo (initGW V Wo Ho)) + frobSq (decFilt Ho (initGH V Wo Ho)))
      c.Tolerance (gradSq0 V Wo Ho)) :
    Factors V Wo Ho c tu = (Wo, Ho, false) := by
  obtain ⟨fuel, hf⟩ : ∃ f, c.MaxIter = f + 1 :=
    ⟨c.MaxIter - 1, (Nat.succ_pred_eq_of_pos h1).symm⟩
  unfold Factors FactorsFull
  rw [hf]
  simp only [factorsLoop, factorsInitState]
  rw [if_pos (Or.inl h2)]

theorem factors_initial_convergence_witness :
    Factors ![![(0 : ℚ), -1]] ![![(1 : ℚ)]] ![![(1 : ℚ), 0]] ⟨1, 1, 5, 5⟩
        (fun _ => false)
      = (![![(1 : ℚ)]], ![![(1 : ℚ), 0]], false) :=
  factors_initial_convergence _ _ _ _ _ (by decide) (by decide)

/-- C7: the squared global stopping scale computed by `Factors` is the squared
Frobenius norm of `Stack(gW, gHᵀ)` with `gW = W·H·Hᵀ - V·Hᵀ` and
`gH = Wᵀ·W·H - Wᵀ·V`, and both sub-tolerances start as
`max(0.001, Tolerance) * grad` (stored as the coefficient of `grad`; the last
conjunct phrases this with the norm itself via `Real.sqrt`). -/
theorem factors_grad_scale {m k n : ℕ} (V : Mat m n) (Wo : Mat m k) (Ho : Mat k n)
    (c : Config) :
    gradSq0 V Wo Ho
        = frobSq (Matrix.fromRows (Wo * Ho * Hoᵀ - V * Hoᵀ) ((Woᵀ * Wo * Ho - Woᵀ * V)ᵀ))
      ∧ (factorsInitState V Wo Ho c).tcW = max (1 / 1000) c.Tolerance
      ∧ (factorsInitState V Wo Ho c).tcH = (factorsInitState V Wo Ho c).tcW
      ∧ ((factorsInitState V Wo Ho c).tcW : ℝ) * Real.sqrt ((gradSq0 V Wo Ho : ℚ) : ℝ)
          = max (1 / 1000) (c.Tolerance : ℝ) *
            Real.sqrt ((frobSq (Matrix.fromRows (Wo * Ho * Hoᵀ - V * Hoᵀ)
              ((Woᵀ * Wo * Ho - Woᵀ * V)ᵀ)) : ℚ) : ℝ) := by
  have h1 : gradSq0 V Wo Ho
      = frobSq (Matrix.fromRows (Wo * Ho * Hoᵀ - V * Hoᵀ)
          ((Woᵀ * Wo * Ho - Woᵀ * V)ᵀ)) := by
    unfold gradSq0 initGW initGH
    rw [Matrix.mul_assoc Wo Ho Hoᵀ]
  refine ⟨h1, rfl, rfl, ?_⟩
  rw [h1]
  show ((max (1 / 1000) c.Tolerance : ℚ) : ℝ) * _ = _
  rw [Rat.cast_max]
  norm_num

/-- C5: the projected-gradient mask used before every stopping test maps a
gradient entry to itself when the entry is negative or the corresponding entry
of the factor matrix (the current one, passed as `F`) is positive, and to zero
otherwise. -/
theorem decFilt_entry {m n : ℕ} (F G : Mat m n) (i : Fin m) (j : Fin n) :
    ((G i j < 0 ∨ 0 < F i j) → decFilt F G i j = G i j) ∧
      (0 ≤ G i j → F i j ≤ 0 → decFilt F G i j = 0) := by
  constructor
  · intro h
    simp only [decFilt, Matrix.of_apply, if_pos h]
  · intro h1 h2
    have h : ¬(G i j < 0 ∨ 0 < F i j) := by
      push_neg
      exact ⟨h1, h2⟩
    simp only [decFilt, Matrix.of_apply, if_neg h]

theorem decFilt_entry_witness :
    decFilt ![![(1 : ℚ)]] ![![(5 : ℚ)]] 0 0 = ![![(5 : ℚ)]] 0 0 ∧
      decFilt ![![(0 : ℚ)]] ![![(3 : ℚ)]] 0 0 = 0 :=
  ⟨(decFilt_entry ![![(1 : ℚ)]] ![![(5 : ℚ)]] 0 0).1 (by decide),
    (decFilt_entry ![![(0 : ℚ)]] ![![(3 : ℚ)]] 0 0).2 (by decide) (by decide)⟩

/-- C6: each line-search candidate is the entrywise clamp
`Hn i j = max 0 (H i j - alpha * G i j)`, and the sufficient-decrease test
accepts exactly when `0.99 * Σ (G ⊙ d) + 0.5 * Σ ((WtW·d) ⊙ d) < 0` with
`d = Hn - H`, the sums running over all entries. -/
theorem lineSearch_spec {k b : ℕ} (WtW : Mat k k) (G H Hn : Mat k b) (alpha : ℚ) :
    (∀ i j, candidate G H alpha i j = max 0 (H i j - alpha * G i j)) ∧
      (suffVal WtW G H Hn < 0 ↔
        99 / 100 * (∑ i, ∑ j, G i j * (Hn - H) i j)
            + 1 / 2 * (∑ i, ∑ j, (WtW * (Hn - H)) i j * (Hn - H) i j) < 0) := by
  constructor
  · intro i j
    unfold candidate
    rw [Matrix.map_apply, Matrix.sub_apply, Matrix.smul_apply, smul_eq_mul,
      posFilt_eq_max]
  · have e : suffVal WtW G H Hn
        = 99 / 100 * (∑ i, ∑ j, G i j * (Hn - H) i j)
          + 1 / 2 * (∑ i, ∑ j, (WtW * (Hn - H)) i j * (Hn - H) i j) := by
      unfold suffVal matSum
      simp only [Matrix.hadamard_apply]
    rw [e]

theorem candidate_nonneg {k b : ℕ} (G H : Mat k b) (alpha : ℚ) :
    NN (candidate G H alpha) := by
  intro i j
  unfold candidate
  rw [Matrix.map_apply]
  exact posFilt_nonneg _

theorem transpose_nonneg {m n : ℕ} {A : Mat m n} (h : NN A) : NN Aᵀ :=
  fun i j => h j i

set_option maxHeartbeats 2000000 in
theorem nnlsInner_nonneg {k b : ℕ} (WtW : Mat k k) (G H : Mat k b) (Hp : Mat k b)
    (alpha : ℚ) (red ok first : Bool) (fuel : ℕ) (hH : NN H) (hHp : NN Hp) :
    NN (nnlsInner WtW G H Hp alpha red ok first fuel).H := by
  induction fuel generalizing Hp alpha red ok first with
  | zero => simpa [nnlsInner] using hH
  | succ fuel ih =>
    have hHp' : NN (if first = true then H else Hp) := by
      split <;> assumption
    simp only [nnlsInner]
    repeat' split
    all_goals
      first
        | exact candidate_nonneg _ _ _
        | exact hH
        | exact hHp
        | exact hHp'
        | exact ih _ _ _ _ _ hH
        | exact ih _ _ _ _ _ hHp
        | exact ih _ _ _ _ _ hHp'
        | exact ih _ _ _ _ _ (candidate_nonneg _ _ _)

theorem nnlsLoop_nonneg {k b : ℕ} (WtV : Mat k b) (WtW : Mat k k) (tc gs : ℚ)
    (inner : ℕ) (i fuel : ℕ) (H G : Mat k b) (alpha : ℚ) (ok racc eacc : Bool)
    (hH : NN H) :
    NN (nnlsLoop WtV WtW tc gs inner i fuel H G alpha ok racc eacc).H := by
  induction fuel generalizing i H G alpha ok racc eacc with
  | zero => simpa [nnlsLoop] using hH
  | succ fuel ih =>
    simp only [nnlsLoop]
    split
    · exact hH
    · exact ih _ _ _ _ _ _ _ (nnlsInner_nonneg _ _ _ _ _ _ _ _ _ hH hH)

theorem nnlsSubproblem_nonneg {a k b : ℕ} (V : Mat a b) (W : Mat a k) (Ho : Mat k b)
    (tc gs : ℚ) (outer inner : ℕ) (hHo : NN Ho) :
    NN (nnlsSubproblem V W Ho tc gs outer inner).H := by
  unfold nnlsSubproblem
  exact nnlsLoop_nonneg _ _ _ _ _ _ _ _ _ _ _ _ _ hHo

theorem factorsLoop_nonneg {m k n : ℕ} (V : Mat m n) (c : Config) (gs : ℚ)
    (tu : ℕ → Bool) (i fuel : ℕ) (s : FState m k n) (hW : NN s.W) (hH : NN s.H) :
    NN (factorsLoop V c gs tu i fuel s).W ∧ NN (factorsLoop V c gs tu i fuel s).H := by
  induction fuel generalizing i s with
  | zero => simpa [factorsLoop] using ⟨hW, hH⟩
  | succ fuel ih =>
    simp only [factorsLoop]
    split
    · exact ⟨hW, hH⟩
    · exact ih _ _
        (transpose_nonneg
          (nnlsSubproblem_nonneg _ _ _ _ _ _ _ (transpose_nonneg hW)))
        (nnlsSubproblem_nonneg _ _ _ _ _ _ _ hH)

/-- C1: for non-negative inputs `V`, `Wo`, `Ho` and any configuration and time
oracle, every entry of the `W` and `H` returned by `Factors` is non-negative:
each accepted line-search candidate passes through `posFilt`, so non-negativity
survives every completed outer iteration. -/
theorem factors_nonneg {m k n : ℕ} (V : Mat m n) (Wo : Mat m k) (Ho : Mat k n)
    (c : Config) (tu : ℕ → Bool) (_hV : NN V) (hW : NN Wo) (hH : NN Ho) :
    NN (Factors V Wo Ho c tu).1 ∧ NN (Factors V Wo Ho c tu).2.1 := by
  unfold Factors FactorsFull
  exact factorsLoop_nonneg _ _ _ _ _ _ _ hW hH

theorem factors_nonneg_witness :
    NN (Factors ![![(2 : ℚ)]] ![![(1 : ℚ)]] ![![(1 : ℚ)]] ⟨1 / 10, 1, 2, 2⟩
        (fun _ => false)).1 ∧
      NN (Factors ![![(2 : ℚ)]] ![![(1 : ℚ)]] ![![(1 : ℚ)]] ⟨1 / 10, 1, 2, 2⟩
        (fun _ => false)).2.1 :=
  factors_nonneg _ _ _ _ _ (by decide) (by decide) (by decide)

/-- Within one run of the inner loop, the program variable `ok` leaves as
`ok || redAcc`: the only assignment `ok = true` in the source sits in the
reduce-mode acceptance branch. -/
theorem nnlsInner_ok_eq {k b : ℕ} (WtW : Mat k k) (G H : Mat k b) (Hp : Mat k b)
    (alpha : ℚ) (red ok first : Bool) (fuel : ℕ) :
    (nnlsInner WtW G H Hp alpha red ok first fuel).ok
      = (ok || (nnlsInner WtW G H Hp alpha red ok first fuel).redAcc) := by
  induction fuel generalizing Hp alpha red ok first with
  | zero => simp [nnlsInner]
  | succ fuel ih =>
    simp only [nnlsInner]
    repeat' split
    all_goals
      first
        | simp
        | exact ih _ _ _ _ _

theorem nnlsLoop_ok_eq {k b : ℕ} (WtV : Mat k b) (WtW : Mat k k) (tc gs : ℚ)
    (inner : ℕ) (i fuel : ℕ) (H G : Mat k b) (alpha : ℚ) (ok racc eacc : Bool)
    (h : ok = racc) :
    (nnlsLoop WtV WtW tc gs inner i fuel H G alpha ok racc eacc).ok
      = (nnlsLoop WtV WtW tc gs inner i fuel H G alpha ok racc eacc).redAccAny := by
  induction fuel generalizing i H G alpha ok racc eacc with
  | zero => simpa [nnlsLoop] using h
  | succ fuel ih =>
    simp only [nnlsLoop]
    split
    · exact h
    · exact ih _ _ _ _ _ _ _ (by rw [nnlsInner_ok_eq, h])

/-- C2 (amended): the `ok` flag returned by `nnlsSubproblem` is true exactly when
some inner iteration accepted a candidate through the *reduce*-mode branch;
expand-mode acceptances do not set it. -/
theorem nnls_ok_iff_reduce_accept {a k b : ℕ} (V : Mat a b) (W : Mat a k)
    (Ho : Mat k b) (tc gs : ℚ) (outer inner : ℕ) :
    (nnlsSubproblem V W Ho tc gs outer inner).ok
      = (nnlsSubproblem V W Ho tc gs outer inner).redAccAny := by
  unfold nnlsSubproblem
  exact nnlsLoop_ok_eq _ _ _ _ _ _ _ _ _ _ _ _ _ rfl

/-- C2 counterexample: a call on which the line search enters expand mode,
accepts a genuinely new candidate (`H` moves from `[[1]]` to `[[2]]`, recorded
by the ghost flag `expAccAny`), yet the returned `ok` is `false` — refuting
"`ok` is true iff some inner acceptance occurred in either reduce or expand
mode". -/
theorem nnls_ok_missed_expand_accept :
    (nnlsSubproblem ![![(2 : ℚ)]] ![![(1 : ℚ)]] ![![(1 : ℚ)]] 1 1 1 2).ok = false ∧
      (nnlsSubproblem ![![(2 : ℚ)]] ![![(1 : ℚ)]] ![![(1 : ℚ)]] 1 1 1 2).expAccAny
          = true ∧
      (nnlsSubproblem ![![(2 : ℚ)]] ![![(1 : ℚ)]] ![![(1 : ℚ)]] 1 1 1 2).H
          ≠ ![![(1 : ℚ)]] := by
  refine ⟨by decide, by decide, ?_⟩
  intro hcontra
  have : (nnlsSubproblem ![![(2 : ℚ)]] ![![(1 : ℚ)]] ![![(1 : ℚ)]] 1 1 1 2).H 0 0
      = 1 := by rw [hcontra]; rfl
  revert this
  decide

/-- Invariant behind C4: once an outer iteration has completed, `ok` is exactly
the AND of the two success flags it recorded; the break branch leaves both
fields untouched. -/
theorem factorsLoop_lastFlags {m k n : ℕ} (V : Mat m n) (c : Config) (gs : ℚ)
    (tu : ℕ → Bool) (i fuel : ℕ) (s : FState m k n)
    (h : ∀ p, s.lastFlags = some p → s.ok = (p.1 && p.2)) :
    ∀ p, (factorsLoop V c gs tu i fuel s).lastFlags = some p →
      (factorsLoop V c gs tu i fuel s).ok = (p.1 && p.2) := by
  induction fuel generalizing i s with
  | zero => simpa [factorsLoop] using h
  | succ fuel ih =>
    simp only [factorsLoop]
    split
    · exact h
    · apply ih
      intro p hp
      obtain rfl : _ = p := Option.some.inj hp
      rfl

/-- C4: whenever at least one outer iteration of `Factors` ran both subproblem
solves (so the ghost field `lastFlags` records the flag pair of the most
recently completed iteration), the returned `ok` equals the AND of exactly that
pair — flags of earlier iterations are overwritten. -/
theorem factors_ok_lastFlags {m k n : ℕ} (V : Mat m n) (Wo : Mat m k)
    (Ho : Mat k n) (c : Config) (tu : ℕ → Bool) (p : Bool × Bool)
    (h : (FactorsFull V Wo Ho c tu).lastFlags = some p) :
    (FactorsFull V Wo Ho c tu).ok = (p.1 && p.2) := by
  unfold FactorsFull at h ⊢
  exact factorsLoop_lastFlags _ _ _ _ _ _ _ (by simp [factorsInitState]) p h

theorem factors_ok_lastFlags_witness :
    (FactorsFull ![![(2 : ℚ)]] ![![(1 : ℚ)]] ![![(1 : ℚ)]] ⟨1 / 10, 1, 2, 2⟩
        (fun _ => false)).ok = (false && false) :=
  factors_ok_lastFlags _ _ _ _ _ (false, false) (by decide)

/-- C8: one inner iteration in expand mode (`reduce = false`, past `j = 0`):
if the sufficient-decrease test fails or the previous candidate `Hp` equals the
new candidate `Hn`, the loop accepts `H = Hp` and exits (without touching `ok`);
otherwise it grows the step (`alpha / beta`), remembers `Hp = Hn`, and retries. -/
theorem nnlsInner_expand_step {k b : ℕ} (WtW : Mat k k) (G H Hp : Mat k b)
    (alpha : ℚ) (ok : Bool) (fuel : ℕ) :
    (¬suffVal WtW G H (candidate G H alpha) < 0 ∨ Hp = candidate G H alpha →
        nnlsInner WtW G H Hp alpha false ok false (fuel + 1)
          = ⟨Hp, alpha, ok, false, decide (Hp ≠ H)⟩) ∧
      (suffVal WtW G H (candidate G H alpha) < 0 ∧ Hp ≠ candidate G H alpha →
        nnlsInner WtW G H Hp alpha false ok false (fuel + 1)
          = nnlsInner WtW G H (candidate G H alpha) (alpha / beta) false ok false
              fuel) := by
  constructor
  · rintro (h | h) <;> simp [nnlsInner, h]
  · rintro ⟨h1, h2⟩
    simp [nnlsInner, h1, h2]

theorem nnlsInner_expand_step_witness :
    nnlsInner ![![(1 : ℚ)]] ![![(-1 : ℚ)]] ![![(1 : ℚ)]] ![![(2 : ℚ)]] 10 false
        false false 1
      = ⟨![![(2 : ℚ)]], 10, false, false,
          decide ((![![(2 : ℚ)]] : Mat 1 1) ≠ ![![(1 : ℚ)]])⟩ ∧
      nnlsInner ![![(1 : ℚ)]] ![![(-1 : ℚ)]] ![![(1 : ℚ)]] ![![(1 : ℚ)]] 1 false
          false false 1
        = nnlsInner ![![(1 : ℚ)]] ![![(-1 : ℚ)]] ![![(1 : ℚ)]]
            (candidate ![![(-1 : ℚ)]] ![![(1 : ℚ)]] 1) (1 / beta) false false
            false 0 :=
  ⟨(nnlsInner_expand_step ![![(1 : ℚ)]] ![![(-1 : ℚ)]] ![![(1 : ℚ)]]
      ![![(2 : ℚ)]] 10 false 0).1 (by decide),
    (nnlsInner_expand_step ![![(1 : ℚ)]] ![![(-1 : ℚ)]] ![![(1 : ℚ)]]
      ![![(1 : ℚ)]] 1 false 0).2 (by decide)⟩

end NMF
